import Mathlib

/-!
# Verification of `src/utils.py` (moe repository)

Shallow embedding of the repository's single source file `src/utils.py`
into Lean 4, together with theorems settling the frozen claims about it.

Modelling conventions:
* numpy arrays become Lean `List`s; fancy indexing `X[idx]` becomes
  `select X idx`; in-place assignment `preds[test_index] = vals` becomes
  the pure `scatter` update.
* real-valued scores are modelled over `ℚ` (the code computes with
  floats; the claims are about exact arithmetic identities, not rounding
  of binary floats), except where the source takes a square root
  (`np.std`, the Matthews denominator), which lives in `ℝ`.
* Python exceptions are modelled with `Except`: a fallible call returns
  `Except ε _`, and a `try/except` becomes a `match` on that result.
* library calls that are not part of this repository (sklearn's
  `StratifiedKFold`, `ParameterGrid`, `matthews_corrcoef`, pandas'
  `crosstab`) are modelled from the spec's description of them; each such
  definition carries a doc comment saying so.
-/

namespace Moe

/-! ## Generic list helpers (numpy-style indexing and assignment) -/

/-- numpy fancy indexing `l[idx]`: the elements of `l` at the positions
listed in `idx` (positions are in range wherever the source uses this). -/
def select {γ : Type} [Inhabited γ] (l : List γ) (idx : List ℕ) : List γ :=
  idx.map (fun i => l.getD i default)

/-- numpy fancy assignment `l[idx] = vals`: write `vals[p]` at position
`idx[p]` for each `p`, left to right. -/
def scatter {γ : Type} (l : List γ) (idx : List ℕ) (vals : List γ) : List γ :=
  (idx.zip vals).foldl (fun acc iv => acc.set iv.1 iv.2) l

theorem scatter_length {γ : Type} (idx : List ℕ) (vals : List γ) (l : List γ) :
    (scatter l idx vals).length = l.length := by
  unfold scatter
  generalize idx.zip vals = ps
  induction ps generalizing l with
  | nil => rfl
  | cons hd tl ih => simpa [List.foldl_cons, List.length_set] using ih (l.set hd.1 hd.2)

theorem scatter_getElem?_of_not_mem {γ : Type} {i : ℕ} {idx : List ℕ}
    (vals : List γ) (l : List γ) (h : i ∉ idx) :
    (scatter l idx vals)[i]? = l[i]? := by
  induction idx generalizing vals l with
  | nil => rfl
  | cons j tl ih =>
    cases vals with
    | nil => rfl
    | cons v vt =>
      have hj : j ≠ i := fun e => h (e ▸ List.mem_cons_self j tl)
      have htl : i ∉ tl := fun m => h (List.mem_cons_of_mem j m)
      calc (scatter (l.set j v) tl vt)[i]? = (l.set j v)[i]? := ih vt (l.set j v) htl
        _ = l[i]? := List.getElem?_set_ne hj

/-- When every value written is a function of its own target position
(`vals = idx.map g`), any position touched by the write ends up holding
`g i`, duplicates in `idx` or not. -/
theorem scatter_getElem?_map {γ : Type} (g : ℕ → γ) {i : ℕ} {idx : List ℕ}
    (l : List γ) (hmem : i ∈ idx) (hlen : i < l.length) :
    (scatter l idx (idx.map g))[i]? = some (g i) := by
  induction idx generalizing l with
  | nil => cases hmem
  | cons j tl ih =>
    show (scatter (l.set j (g j)) tl (tl.map g))[i]? = some (g i)
    by_cases hi : i ∈ tl
    · exact ih (l.set j (g j)) hi (by simpa [List.length_set] using hlen)
    · have hij : i = j := by
        rcases List.mem_cons.1 hmem with h | h
        · exact h
        · exact absurd h hi
      subst hij
      calc (scatter (l.set i (g i)) tl (tl.map g))[i]?
          = (l.set i (g i))[i]? := scatter_getElem?_of_not_mem _ _ hi
        _ = some (g i) := List.getElem?_set_self hlen

/-- `np.mean` of a list of rationals (0 on the empty list; numpy would
give NaN there, a case the claims never reach). -/
def npMean (l : List ℚ) : ℚ := l.sum / l.length

/-- `np.argmax`: index of the first occurrence of the maximum (0 on the
empty list; numpy raises there, a case guarded by hypotheses). -/
def npArgmax : List ℚ → ℕ
  | [] => 0
  | [_] => 0
  | x :: y :: ys =>
    let j := npArgmax (y :: ys)
    if x < (y :: ys).getD j 0 then j + 1 else 0

theorem npArgmax_cons_cons (x y : ℚ) (ys : List ℚ) :
    npArgmax (x :: y :: ys) =
      if x < (y :: ys).getD (npArgmax (y :: ys)) 0 then npArgmax (y :: ys) + 1 else 0 :=
  rfl

theorem npArgmax_lt_length {l : List ℚ} (h : l ≠ []) : npArgmax l < l.length := by
  induction l with
  | nil => exact absurd rfl h
  | cons x xs ih =>
    cases xs with
    | nil => simp [npArgmax]
    | cons y ys =>
      have hlt := ih (by simp)
      rw [npArgmax_cons_cons]
      by_cases hc : x < (y :: ys).getD (npArgmax (y :: ys)) 0
      · rw [if_pos hc]
        exact Nat.succ_lt_succ hlt
      · rw [if_neg hc]
        simp

theorem getD_le_getD_npArgmax (l : List ℚ) (j : ℕ) (hj : j < l.length) :
    l.getD j 0 ≤ l.getD (npArgmax l) 0 := by
  induction l generalizing j with
  | nil => simp at hj
  | cons x xs ih =>
    cases xs with
    | nil =>
      have hj0 : j = 0 := by simp at hj; omega
      subst hj0
      simp [npArgmax]
    | cons y ys =>
      rw [npArgmax_cons_cons]
      by_cases hc : x < (y :: ys).getD (npArgmax (y :: ys)) 0
      · rw [if_pos hc]
        have hx : (x :: y :: ys).getD (npArgmax (y :: ys) + 1) 0
            = (y :: ys).getD (npArgmax (y :: ys)) 0 := rfl
        rw [hx]
        cases j with
        | zero => exact le_of_lt hc
        | succ j2 =>
          have := ih j2 (by simpa using Nat.lt_of_succ_lt_succ hj)
          simpa [List.getD] using this
      · rw [if_neg hc]
        have hx : (x :: y :: ys).getD 0 0 = x := rfl
        rw [hx]
        cases j with
        | zero => simp [List.getD]
        | succ j2 =>
          have h1 := ih j2 (by simpa using Nat.lt_of_succ_lt_succ hj)
          have h2 := le_of_not_lt hc
          have : (x :: y :: ys).getD (j2 + 1) 0 = (y :: ys).getD j2 0 := rfl
          rw [this]
          exact le_trans h1 h2

/-- Everything strictly before the argmax is strictly below the maximum:
`np.argmax` returns the first occurrence of the maximum. -/
theorem getD_lt_of_lt_npArgmax (l : List ℚ) (j : ℕ) (hj : j < npArgmax l) :
    l.getD j 0 < l.getD (npArgmax l) 0 := by
  induction l generalizing j with
  | nil => simp [npArgmax] at hj
  | cons x xs ih =>
    cases xs with
    | nil => simp [npArgmax] at hj
    | cons y ys =>
      by_cases hc : x < (y :: ys).getD (npArgmax (y :: ys)) 0
      · have harg : npArgmax (x :: y :: ys) = npArgmax (y :: ys) + 1 := by
          rw [npArgmax_cons_cons, if_pos hc]
        rw [harg] at hj ⊢
        have hx : (x :: y :: ys).getD (npArgmax (y :: ys) + 1) 0
            = (y :: ys).getD (npArgmax (y :: ys)) 0 := rfl
        rw [hx]
        cases j with
        | zero => exact hc
        | succ j2 =>
          have := ih j2 (Nat.lt_of_succ_lt_succ hj)
          have hy : (x :: y :: ys).getD (j2 + 1) 0 = (y :: ys).getD j2 0 := rfl
          rw [hy]
          exact this
      · have harg : npArgmax (x :: y :: ys) = 0 := by
          rw [npArgmax_cons_cons, if_neg hc]
        rw [harg] at hj
        exact absurd hj (Nat.not_lt_zero j)

/-! ## Stratified k-fold splitting (sklearn `StratifiedKFold`) -/

/-- Rank of position `i` within its own class: how many earlier positions
carry the same label. -/
def classRank {β : Type} [DecidableEq β] (y : List β) (i : ℕ) : ℕ :=
  (List.range i).countP (fun j => y[j]? = y[i]?)

/-- Fold assigned to position `i`: within each class, positions are dealt
round-robin over the `k` folds, offset by the shuffle seed when one is
given. -/
def foldOf {β : Type} [DecidableEq β] (k : ℕ) (seed : Option ℕ) (y : List β) (i : ℕ) : ℕ :=
  (classRank y i + seed.getD 0) % k

/-- Modelled from the spec: sklearn's `StratifiedKFold(...).split(X, y)`
is not part of this repository.  The spec's glossary describes it as "a
partition of data into k subsets preserving overall class-label
proportions in each subset"; the split is a deterministic function of the
fold count, the seed and the labels, each fold's test set is its subset
and its training set is the complement.  The model deals each class's
positions round-robin over the folds (seed-offset when shuffling), which
realises exactly those properties. -/
def stratifiedKFoldSplits {β : Type} [DecidableEq β] (k : ℕ) (seed : Option ℕ)
    (y : List β) : List (List ℕ × List ℕ) :=
  (List.range k).map (fun f =>
    ((List.range y.length).filter (fun i => ¬ foldOf k seed y i = f),
     (List.range y.length).filter (fun i => foldOf k seed y i = f)))

theorem length_stratifiedKFoldSplits {β : Type} [DecidableEq β] (k : ℕ)
    (seed : Option ℕ) (y : List β) :
    (stratifiedKFoldSplits k seed y).length = k := by
  simp [stratifiedKFoldSplits]

theorem foldOf_lt {β : Type} [DecidableEq β] {k : ℕ} (hk : 0 < k) (seed : Option ℕ)
    (y : List β) (i : ℕ) : foldOf k seed y i < k :=
  Nat.mod_lt _ hk

theorem mem_test_stratified {β : Type} [DecidableEq β] {k : ℕ} {seed : Option ℕ}
    {y : List β} {f : ℕ} {hf : f < (stratifiedKFoldSplits k seed y).length} {i : ℕ} :
    i ∈ ((stratifiedKFoldSplits k seed y)[f]).2 ↔
      i < y.length ∧ foldOf k seed y i = f := by
  have hf2 : f < k := by
    simpa [length_stratifiedKFoldSplits] using hf
  have : (stratifiedKFoldSplits k seed y)[f] =
      ((List.range y.length).filter (fun i => ¬ foldOf k seed y i = f),
       (List.range y.length).filter (fun i => foldOf k seed y i = f)) := by
    simp [stratifiedKFoldSplits]
  rw [this]
  simp [List.mem_filter, List.mem_range]

theorem mem_train_stratified {β : Type} [DecidableEq β] {k : ℕ} {seed : Option ℕ}
    {y : List β} {f : ℕ} {hf : f < (stratifiedKFoldSplits k seed y).length} {i : ℕ} :
    i ∈ ((stratifiedKFoldSplits k seed y)[f]).1 ↔
      i < y.length ∧ ¬ foldOf k seed y i = f := by
  have : (stratifiedKFoldSplits k seed y)[f] =
      ((List.range y.length).filter (fun i => ¬ foldOf k seed y i = f),
       (List.range y.length).filter (fun i => foldOf k seed y i = f)) := by
    simp [stratifiedKFoldSplits]
  rw [this]
  simp [List.mem_filter, List.mem_range]

/-- Membership of a pair in the split list pins down its fold index. -/
theorem mem_stratifiedKFoldSplits {β : Type} [DecidableEq β] {k : ℕ} {seed : Option ℕ}
    {y : List β} {tt : List ℕ × List ℕ} :
    tt ∈ stratifiedKFoldSplits k seed y ↔
      ∃ f < k, tt =
        ((List.range y.length).filter (fun i => ¬ foldOf k seed y i = f),
         (List.range y.length).filter (fun i => foldOf k seed y i = f)) := by
  simp only [stratifiedKFoldSplits, List.mem_map, List.mem_range]
  constructor
  · rintro ⟨f, hf, rfl⟩
    exact ⟨f, hf, rfl⟩
  · rintro ⟨f, hf, rfl⟩
    exact ⟨f, hf, rfl⟩

/-- If position `i` lies in the test part of a member pair, the pair is the
fold of `i`. -/
theorem test_mem_unique {β : Type} [DecidableEq β] {k : ℕ} {seed : Option ℕ}
    {y : List β} {tt : List ℕ × List ℕ} (hmem : tt ∈ stratifiedKFoldSplits k seed y)
    {i : ℕ} (hi : i ∈ tt.2) :
    tt = ((List.range y.length).filter (fun j => ¬ foldOf k seed y j = foldOf k seed y i),
          (List.range y.length).filter (fun j => foldOf k seed y j = foldOf k seed y i)) := by
  rcases mem_stratifiedKFoldSplits.1 hmem with ⟨f, hf, rfl⟩
  have : foldOf k seed y i = f := by
    have := List.mem_filter.1 hi
    simpa using this.2
  rw [this]

/-! ## Out-of-fold predictions (`StratifiedKFoldTestPredictions`) -/

/-- An estimator as the fold predictor uses it: `fit` trains on rows and
labels and yields a per-row predictor (the source's vectorised
`clf.predict` on a test matrix is the row predictor mapped over the test
rows).  `fitWithNJobs` is the fallible first attempt
`clf.fit(..., n_jobs=n_jobs)`: it may raise an arbitrary exception `ε`,
for instance when the estimator rejects the keyword.  The bare retry
`clf.fit(...)` is modelled total; the claims never exercise a failing
retry. -/
structure Clf (α β ε : Type) where
  fitWithNJobs : List α → List β → ℤ → Except ε (α → β)
  fit : List α → List β → (α → β)

/-- Lines 52-55 of `utils.py`: attempt the fit with the parallelism hint;
on any exception, retry the fit without the hint. -/
def fitFold {α β ε : Type} (clf : Clf α β ε) (trX : List α) (trY : List β)
    (n_jobs : ℤ) : α → β :=
  match clf.fitWithNJobs trX trY n_jobs with
  | .ok m => m
  | .error _ => clf.fit trX trY

/-- Lines 47-58 of `utils.py`: out-of-fold predictions.  `np.empty_like(y)`
is an uninitialised buffer, modelled as `default` junk; each fold
overwrites its own test slots. -/
def StratifiedKFoldTestPredictions {α β ε : Type} [Inhabited α] [Inhabited β]
    [DecidableEq β] (X : List α) (y : List β) (clf : Clf α β ε) (k : ℕ)
    (n_jobs : ℤ) : List β :=
  (stratifiedKFoldSplits k none y).foldl
    (fun preds tt =>
      scatter preds tt.2
        ((select X tt.2).map (fitFold clf (select X tt.1) (select y tt.1) n_jobs)))
    (List.replicate y.length default)

/-- The per-fold write, with the written values expressed as a function of
the target position (`select` then `map` is `map` over the test indices). -/
theorem fold_write_eq_map {α β ε : Type} [Inhabited α] [Inhabited β]
    (X : List α) (clf : Clf α β ε) (n_jobs : ℤ) (preds : List β)
    (tt : List ℕ × List ℕ) (trY : List β) :
    scatter preds tt.2 ((select X tt.2).map (fitFold clf (select X tt.1) trY n_jobs)) =
      scatter preds tt.2
        (tt.2.map (fun j => fitFold clf (select X tt.1) trY n_jobs (X.getD j default))) := by
  simp only [select, List.map_map]
  rfl

theorem foldl_write_length {β : Type}
    (w : (List ℕ × List ℕ) → ℕ → β) (L : List (List ℕ × List ℕ)) (init : List β) :
    (L.foldl (fun preds tt => scatter preds tt.2 (tt.2.map (w tt))) init).length =
      init.length := by
  induction L generalizing init with
  | nil => rfl
  | cons hd tl ih =>
    simpa [List.foldl_cons, scatter_length] using
      (ih (scatter init hd.2 (hd.2.map (w hd)))).trans (scatter_length _ _ init)

theorem foldl_write_getElem?_of_not_mem {β : Type}
    (w : (List ℕ × List ℕ) → ℕ → β) {L : List (List ℕ × List ℕ)} (init : List β)
    {i : ℕ} (h : ∀ tt ∈ L, i ∉ tt.2) :
    (L.foldl (fun preds tt => scatter preds tt.2 (tt.2.map (w tt))) init)[i]? =
      init[i]? := by
  induction L generalizing init with
  | nil => rfl
  | cons hd tl ih =>
    have h1 : i ∉ hd.2 := h hd (List.mem_cons_self hd tl)
    have h2 : ∀ tt ∈ tl, i ∉ tt.2 := fun tt ht => h tt (List.mem_cons_of_mem hd ht)
    calc (tl.foldl _ (scatter init hd.2 (hd.2.map (w hd))))[i]?
        = (scatter init hd.2 (hd.2.map (w hd)))[i]? := ih _ h2
      _ = init[i]? := scatter_getElem?_of_not_mem _ init h1

/-- If exactly one pair of `L` has `i` in its test part, the final buffer
holds that pair's written value at `i`. -/
theorem foldl_write_getElem?_unique {β : Type}
    (w : (List ℕ × List ℕ) → ℕ → β) {L : List (List ℕ × List ℕ)} (init : List β)
    {i : ℕ} {tt0 : List ℕ × List ℕ} (hmem : tt0 ∈ L) (hi : i ∈ tt0.2)
    (hcount : L.countP (fun tt => decide (i ∈ tt.2)) = 1) (hlen : i < init.length) :
    (L.foldl (fun preds tt => scatter preds tt.2 (tt.2.map (w tt))) init)[i]? =
      some (w tt0 i) := by
  induction L generalizing init with
  | nil => cases hmem
  | cons hd tl ih =>
    by_cases hhd : i ∈ hd.2
    · have hcnt0 : tl.countP (fun tt => decide (i ∈ tt.2)) = 0 := by
        have h2 := hcount
        rw [List.countP_cons_of_pos _ tl (by simpa using hhd)] at h2
        omega
      have htl : ∀ tt ∈ tl, i ∉ tt.2 := by
        intro tt ht hit
        have hpos : 0 < tl.countP (fun tt => decide (i ∈ tt.2)) :=
          List.countP_pos_iff.2 ⟨tt, ht, by simpa using hit⟩
        omega
      have htt0 : tt0 = hd := by
        rcases List.mem_cons.1 hmem with h | h
        · exact h
        · exact absurd hi (htl tt0 h)
      subst htt0
      calc (tl.foldl _ (scatter init tt0.2 (tt0.2.map (w tt0))))[i]?
          = (scatter init tt0.2 (tt0.2.map (w tt0)))[i]? :=
            foldl_write_getElem?_of_not_mem w _ htl
        _ = some (w tt0 i) := scatter_getElem?_map (w tt0) init hhd hlen
    · have htt0 : tt0 ∈ tl := by
        rcases List.mem_cons.1 hmem with h | h
        · exact absurd (h ▸ hi) hhd
        · exact h
      have hcnt : tl.countP (fun tt => decide (i ∈ tt.2)) = 1 := by
        rw [List.countP_cons] at hcount
        simpa [hhd] using hcount
      exact ih _ htt0 hcnt (by simpa [scatter_length] using hlen)

/-- The test part of fold `f` of the unshuffled split (as
`StratifiedKFoldTestPredictions` builds it). -/
def oofTestFold {β : Type} [DecidableEq β] (k : ℕ) (y : List β) (f : ℕ) : List ℕ :=
  ((stratifiedKFoldSplits k none y).getD f ([], [])).2

/-- The training part of fold `f` of the unshuffled split. -/
def oofTrainFold {β : Type} [DecidableEq β] (k : ℕ) (y : List β) (f : ℕ) : List ℕ :=
  ((stratifiedKFoldSplits k none y).getD f ([], [])).1

theorem splits_getD_eq {β : Type} [DecidableEq β] {k : ℕ} {f : ℕ} (hf : f < k)
    (seed : Option ℕ) (y : List β) :
    (stratifiedKFoldSplits k seed y).getD f ([], []) =
      ((List.range y.length).filter (fun i => ¬ foldOf k seed y i = f),
       (List.range y.length).filter (fun i => foldOf k seed y i = f)) := by
  rw [List.getD_eq_getElem?_getD, stratifiedKFoldSplits, List.getElem?_map,
    List.getElem?_range hf]
  rfl

theorem mem_oofTestFold {β : Type} [DecidableEq β] {k : ℕ} {f : ℕ} (hf : f < k)
    (y : List β) (i : ℕ) :
    i ∈ oofTestFold k y f ↔ i < y.length ∧ foldOf k none y i = f := by
  rw [oofTestFold, splits_getD_eq hf]
  simp [List.mem_filter, List.mem_range]

theorem mem_oofTrainFold {β : Type} [DecidableEq β] {k : ℕ} {f : ℕ} (hf : f < k)
    (y : List β) (i : ℕ) :
    i ∈ oofTrainFold k y f ↔ i < y.length ∧ ¬ foldOf k none y i = f := by
  rw [oofTrainFold, splits_getD_eq hf]
  simp [List.mem_filter, List.mem_range]

/-- Each in-range position lies in the test part of exactly one pair of the
split list: the test sets partition the index range. -/
theorem countP_test_splits {β : Type} [DecidableEq β] {k : ℕ} (hk : 0 < k)
    (seed : Option ℕ) (y : List β) {i : ℕ} (hi : i < y.length) :
    (stratifiedKFoldSplits k seed y).countP (fun tt => decide (i ∈ tt.2)) = 1 := by
  rw [stratifiedKFoldSplits, List.countP_map]
  have hcongr : ∀ f ∈ List.range k,
      ((fun tt : List ℕ × List ℕ => decide (i ∈ tt.2)) ∘ (fun f =>
        ((List.range y.length).filter (fun j => ¬ foldOf k seed y j = f),
         (List.range y.length).filter (fun j => foldOf k seed y j = f)))) f = true ↔
      (f == foldOf k seed y i) = true := by
    intro f _
    simp only [Function.comp, decide_eq_true_eq, beq_iff_eq, List.mem_filter,
      List.mem_range, decide_eq_true_eq]
    constructor
    · rintro ⟨_, h⟩
      exact h.symm
    · rintro rfl
      exact ⟨hi, by simp⟩
  rw [List.countP_congr hcongr]
  have : (List.range k).countP (fun f => f == foldOf k seed y i) =
      (List.range k).count (foldOf k seed y i) := rfl
  rw [this, List.count_eq_one_of_mem (List.nodup_range k)
    (List.mem_range.2 (foldOf_lt hk seed y i))]

/-- `C5`: `StratifiedKFoldTestPredictions` returns an array of out-of-fold
predictions aligned with the input labels: the result has the length of
`y`; the `k` test index sets are pairwise disjoint and cover the whole
index range; and each position `i` lies in the test set of its own fold,
is excluded from that fold's training set, and receives exactly the
prediction of the estimator fitted (with the hint/fallback fit) on that
training set. -/
theorem stratified_oof_predictions_aligned {α β ε : Type} [Inhabited α] [Inhabited β]
    [DecidableEq β] (X : List α) (y : List β) (clf : Clf α β ε) (k : ℕ) (n_jobs : ℤ)
    (hk : 0 < k) :
    (StratifiedKFoldTestPredictions X y clf k n_jobs).length = y.length ∧
    (∀ f1 f2 i, f1 < k → f2 < k →
      i ∈ oofTestFold k y f1 → i ∈ oofTestFold k y f2 → f1 = f2) ∧
    (∀ i, i < y.length → ∃ f, f < k ∧ i ∈ oofTestFold k y f) ∧
    (∀ i, i < y.length →
      i ∈ oofTestFold k y (foldOf k none y i) ∧
      i ∉ oofTrainFold k y (foldOf k none y i) ∧
      (StratifiedKFoldTestPredictions X y clf k n_jobs)[i]? =
        some (fitFold clf
          (select X (oofTrainFold k y (foldOf k none y i)))
          (select y (oofTrainFold k y (foldOf k none y i)))
          n_jobs (X.getD i default))) := by
  have hfun : (fun (preds : List β) (tt : List ℕ × List ℕ) =>
      scatter preds tt.2
        ((select X tt.2).map (fitFold clf (select X tt.1) (select y tt.1) n_jobs))) =
      (fun preds tt => scatter preds tt.2
        (tt.2.map (fun j =>
          fitFold clf (select X tt.1) (select y tt.1) n_jobs (X.getD j default)))) := by
    funext preds tt
    exact fold_write_eq_map X clf n_jobs preds tt (select y tt.1)
  have hrw : StratifiedKFoldTestPredictions X y clf k n_jobs =
      (stratifiedKFoldSplits k none y).foldl
        (fun preds tt => scatter preds tt.2
          (tt.2.map (fun j =>
            fitFold clf (select X tt.1) (select y tt.1) n_jobs (X.getD j default))))
        (List.replicate y.length default) := by
    rw [StratifiedKFoldTestPredictions, hfun]
  refine ⟨?_, ?_, ?_, ?_⟩
  · rw [hrw]
    rw [foldl_write_length]
    exact List.length_replicate y.length default
  · intro f1 f2 i h1 h2 hm1 hm2
    have e1 := (mem_oofTestFold h1 y i).1 hm1
    have e2 := (mem_oofTestFold h2 y i).1 hm2
    rw [← e1.2, ← e2.2]
  · intro i hi
    refine ⟨foldOf k none y i, foldOf_lt hk none y i, ?_⟩
    exact (mem_oofTestFold (foldOf_lt hk none y i) y i).2 ⟨hi, rfl⟩
  · intro i hi
    have hf : foldOf k none y i < k := foldOf_lt hk none y i
    refine ⟨(mem_oofTestFold hf y i).2 ⟨hi, rfl⟩, ?_, ?_⟩
    · intro hmem
      exact ((mem_oofTrainFold hf y i).1 hmem).2 rfl
    · rw [hrw]
      have hflen : foldOf k none y i < (stratifiedKFoldSplits k none y).length := by
        rw [length_stratifiedKFoldSplits]
        exact hf
      have hpair : (stratifiedKFoldSplits k none y).getD (foldOf k none y i) ([], []) ∈
          stratifiedKFoldSplits k none y := by
        rw [List.getD_eq_getElem?_getD, List.getElem?_eq_getElem hflen]
        simp [List.getElem_mem hflen]
      have hitest : i ∈ ((stratifiedKFoldSplits k none y).getD (foldOf k none y i) ([], [])).2 :=
        (mem_oofTestFold hf y i).2 ⟨hi, rfl⟩
      have := foldl_write_getElem?_unique
        (fun tt j => fitFold clf (select X tt.1) (select y tt.1) n_jobs (X.getD j default))
        (List.replicate y.length default) hpair hitest
        (countP_test_splits hk none y hi)
        (by rw [List.length_replicate]; exact hi)
      exact this

/-- `C6`: the first fit attempt carries the parallelism hint; whatever
exception it raises — not only an unsupported-keyword error — the fit is
retried without the hint, so the first attempt's exception never reaches
the caller. -/
theorem fit_fallback_swallows_first_exception {α β ε : Type} (clf : Clf α β ε)
    (trX : List α) (trY : List β) (n_jobs : ℤ) (e : ε)
    (h : clf.fitWithNJobs trX trY n_jobs = .error e) :
    fitFold clf trX trY n_jobs = clf.fit trX trY := by
  rw [fitFold, h]

/-! ### Concrete instances for the witnesses -/

/-- A concrete estimator whose hinted fit always raises (error code `3`)
and whose bare fit predicts the training majority label. -/
def demoClf : Clf ℚ Bool ℕ :=
  ⟨fun _ _ _ => .error 3,
   fun _ trY _ => decide (trY.countP (fun b => b) * 2 > trY.length)⟩

def demoX : List ℚ := [0, 1, 2, 3]

def demoY : List Bool := [false, true, false, true]

/-- Witness for `C6` at concrete inputs. -/
theorem fit_fallback_swallows_first_exception_witness :
    demoClf.fitWithNJobs demoX demoY (-1) = .error 3 ∧
    fitFold demoClf demoX demoY (-1) = demoClf.fit demoX demoY :=
  ⟨rfl, fit_fallback_swallows_first_exception demoClf demoX demoY (-1) 3 rfl⟩

/-- Witness for `C5` at concrete inputs (`k = 2`). -/
theorem stratified_oof_predictions_aligned_witness :
    0 < 2 ∧
    ((StratifiedKFoldTestPredictions demoX demoY demoClf 2 (-1)).length = demoY.length ∧
    (∀ f1 f2 i, f1 < 2 → f2 < 2 →
      i ∈ oofTestFold 2 demoY f1 → i ∈ oofTestFold 2 demoY f2 → f1 = f2) ∧
    (∀ i, i < demoY.length → ∃ f, f < 2 ∧ i ∈ oofTestFold 2 demoY f) ∧
    (∀ i, i < demoY.length →
      i ∈ oofTestFold 2 demoY (foldOf 2 none demoY i) ∧
      i ∉ oofTrainFold 2 demoY (foldOf 2 none demoY i) ∧
      (StratifiedKFoldTestPredictions demoX demoY demoClf 2 (-1))[i]? =
        some (fitFold demoClf
          (select demoX (oofTrainFold 2 demoY (foldOf 2 none demoY i)))
          (select demoY (oofTrainFold 2 demoY (foldOf 2 none demoY i)))
          (-1) (demoX.getD i default)))) :=
  ⟨by decide,
   stratified_oof_predictions_aligned demoX demoY demoClf 2 (-1) (by decide)⟩

/-! ## The grid-search orchestrator (`class gridsearch`, lines 76-136)

The happy-path embedding: estimator, prediction and scoring are total.
Python's exception flow is modelled separately below (`gridsearchE`) for
the failure-policy claim. -/

/-- An estimator as `gridsearch._eval` uses it: `fit` trains on rows and
labels and yields a per-row predictor (`clf.predict` on a test matrix is
that row predictor mapped over the rows). -/
structure Estimator (α β : Type) where
  fit : List α → List β → (α → β)

/-- Modelled from the spec: sklearn's `ParameterGrid` is library code; per
the spec it enumerates "the Cartesian product of named hyperparameter
value lists ... as full candidate configurations".  As in
`itertools.product`, the last value list varies fastest. -/
def paramGrid {V : Type} : List (String × List V) → List (List (String × V))
  | [] => [[]]
  | kv :: rest => kv.2.flatMap (fun v => (paramGrid rest).map (fun tail => (kv.1, v) :: tail))

/-- The `gridsearch` constructor's configuration (lines 78-93).  The
scoring function is kept abstract over exact rationals (the source
defaults it to `scaled_mcc`). -/
structure gridsearch (V α β : Type) where
  method : List (String × V) → Estimator α β
  grid_params : List (String × List V)
  scoring : List β → List β → ℚ
  cv : ℕ
  n_jobs : ℤ
  random_state : ℕ
  kwargs : Option (List (String × V))

/-- Lines 106-109: `clf = self.method(**params)` or
`self.method(**params, **self.kwargs)`; keyword splicing is modelled as
list concatenation. -/
def mkClf {V α β : Type} (g : gridsearch V α β) (p : List (String × V)) :
    Estimator α β :=
  match g.kwargs with
  | none => g.method p
  | some kw => g.method (p ++ kw)

/-- Lines 95-100, `gridsearch._train_test_split`: one stratified shuffled
split from the configured fold count and seed.  `skf.split(X, y)`
stratifies on the labels; `X` enters only through its (equal) length. -/
def gridsearch.train_test_split {V α β : Type} [DecidableEq β]
    (g : gridsearch V α β) (y : List β) : List (List ℕ × List ℕ) :=
  stratifiedKFoldSplits g.cv (some g.random_state) y

/-- Lines 113-116, the body of the fold loop of `_eval`: fit on the train
indices, predict and score on the test indices. -/
def foldScore {V α β : Type} [Inhabited α] [Inhabited β] (g : gridsearch V α β)
    (X : List α) (y : List β) (clf : Estimator α β) (tt : List ℕ × List ℕ) : ℚ :=
  g.scoring (select y tt.2)
    ((select X tt.2).map (clf.fit (select X tt.1) (select y tt.1)))

/-- The fold loop of `_eval` with its trace: which (train, test) pair each
appended score was computed from. -/
def gridsearch.evalTrace {V α β : Type} [Inhabited α] [Inhabited β]
    (g : gridsearch V α β) (X : List α) (y : List β)
    (splits : List (List ℕ × List ℕ)) (p : List (String × V)) :
    List ((List ℕ × List ℕ) × ℚ) :=
  splits.map (fun tt => (tt, foldScore g X y (mkClf g p) tt))

/-- Lines 102-118, `gridsearch._eval`: the record
`[params, scores, np.mean(scores)]` for one candidate, evaluated over the
supplied splits (the source reads them from `self.k_fold_splits`). -/
def gridsearch.eval {V α β : Type} [Inhabited α] [Inhabited β]
    (g : gridsearch V α β) (X : List α) (y : List β)
    (splits : List (List ℕ × List ℕ)) (p : List (String × V)) :
    List (String × V) × List ℚ × ℚ :=
  let clf := mkClf g p
  let scores := splits.map (foldScore g X y clf)
  (p, scores, npMean scores)

/-- Lines 122-128 of `fit`: the splits are computed once, then every
candidate of the enumerated grid is evaluated against them.  joblib's
thread-based `Parallel` returns results in dispatch order, so the parallel
map is a `List.map` over the grid enumeration. -/
def gridsearch.scoring_results_ {V α β : Type} [Inhabited α] [Inhabited β]
    [DecidableEq β] (g : gridsearch V α β) (X : List α) (y : List β) :
    List (List (String × V) × List ℚ × ℚ) :=
  (paramGrid g.grid_params).map (gridsearch.eval g X y (gridsearch.train_test_split g y))

/-- Lines 130-131: `np.argmax` of the records' mean scores. -/
def gridsearch.best_index_ {V α β : Type} [Inhabited α] [Inhabited β]
    [DecidableEq β] (g : gridsearch V α β) (X : List α) (y : List β) : ℕ :=
  npArgmax ((gridsearch.scoring_results_ g X y).map (fun r => r.2.2))

/-- Line 134: the winning record's parameters. -/
def gridsearch.best_params_ {V α β : Type} [Inhabited α] [Inhabited β]
    [DecidableEq β] (g : gridsearch V α β) (X : List α) (y : List β) :
    List (String × V) :=
  ((gridsearch.scoring_results_ g X y).getD (gridsearch.best_index_ g X y) ([], [], 0)).1

/-- `np.std`: the population standard deviation, the square root of the
mean squared deviation. -/
noncomputable def npStd (l : List ℚ) : ℝ :=
  Real.sqrt ((npMean (l.map (fun x => (x - npMean l) * (x - npMean l))) : ℚ) : ℝ)

/-- Lines 135-136: the `(mean, std)` of the winning record's fold scores. -/
noncomputable def gridsearch.best_score_ {V α β : Type} [Inhabited α] [Inhabited β]
    [DecidableEq β] (g : gridsearch V α β) (X : List α) (y : List β) : ℚ × ℝ :=
  (npMean ((gridsearch.scoring_results_ g X y).getD (gridsearch.best_index_ g X y) ([], [], 0)).2.1,
   npStd ((gridsearch.scoring_results_ g X y).getD (gridsearch.best_index_ g X y) ([], [], 0)).2.1)

/-- `C1`: one `fit` computes a single fold partition and every candidate
evaluation runs over exactly that partition: the list of (train, test)
pairs traced while evaluating any candidate `p` equals the list traced for
any other candidate `q`, both being the partition `_train_test_split`
returned; the result records are those evaluations, and each record's
score list is exactly the scores of its trace. -/
theorem gridsearch_fold_partition_shared {V α β : Type} [Inhabited α] [Inhabited β]
    [DecidableEq β] (g : gridsearch V α β) (X : List α) (y : List β)
    (p q : List (String × V)) :
    (gridsearch.evalTrace g X y (gridsearch.train_test_split g y) p).map (fun t => t.1) =
      (gridsearch.evalTrace g X y (gridsearch.train_test_split g y) q).map (fun t => t.1) ∧
    (gridsearch.evalTrace g X y (gridsearch.train_test_split g y) p).map (fun t => t.1) =
      gridsearch.train_test_split g y ∧
    gridsearch.scoring_results_ g X y =
      (paramGrid g.grid_params).map
        (gridsearch.eval g X y (gridsearch.train_test_split g y)) ∧
    (gridsearch.eval g X y (gridsearch.train_test_split g y) p).2.1 =
      (gridsearch.evalTrace g X y (gridsearch.train_test_split g y) p).map (fun t => t.2) := by
  refine ⟨?_, ?_, rfl, ?_⟩
  · rw [gridsearch.evalTrace, gridsearch.evalTrace, List.map_map, List.map_map]
    rfl
  · rw [gridsearch.evalTrace, List.map_map]
    exact List.map_id _
  · rw [gridsearch.eval, gridsearch.evalTrace, List.map_map]
    rfl

/-- `C2`: the result list has exactly one record per element of the
enumerated parameter grid, the `i`-th record tagged with the `i`-th grid
element (so each grid element appears exactly once, in enumeration
order; thread completion order cannot reorder joblib's dispatch-ordered
result list, modelled by the map). -/
theorem gridsearch_result_records_match_grid {V α β : Type} [Inhabited α]
    [Inhabited β] [DecidableEq β] (g : gridsearch V α β) (X : List α) (y : List β) :
    (gridsearch.scoring_results_ g X y).length = (paramGrid g.grid_params).length ∧
    (gridsearch.scoring_results_ g X y).map (fun r => r.1) = paramGrid g.grid_params := by
  constructor
  · rw [gridsearch.scoring_results_, List.length_map]
  · rw [gridsearch.scoring_results_, List.map_map]
    exact List.map_id _

/-- `C3`: the record at `best_index_` carries a maximal mean fold score,
ties resolve to the smallest index (`np.argmax` keeps the first
occurrence), and `best_params_` / `best_score_` are that record's
parameters and the (mean, standard deviation) of its fold scores. -/
theorem gridsearch_best_selection {V α β : Type} [Inhabited α] [Inhabited β]
    [DecidableEq β] (g : gridsearch V α β) (X : List α) (y : List β)
    (hne : paramGrid g.grid_params ≠ []) :
    gridsearch.best_index_ g X y < (gridsearch.scoring_results_ g X y).length ∧
    (∀ j, j < (gridsearch.scoring_results_ g X y).length →
      ((gridsearch.scoring_results_ g X y).getD j ([], [], 0)).2.2 ≤
        ((gridsearch.scoring_results_ g X y).getD (gridsearch.best_index_ g X y)
          ([], [], 0)).2.2) ∧
    (∀ j, j < (gridsearch.scoring_results_ g X y).length →
      ((gridsearch.scoring_results_ g X y).getD j ([], [], 0)).2.2 =
        ((gridsearch.scoring_results_ g X y).getD (gridsearch.best_index_ g X y)
          ([], [], 0)).2.2 →
      gridsearch.best_index_ g X y ≤ j) ∧
    gridsearch.best_params_ g X y =
      ((gridsearch.scoring_results_ g X y).getD (gridsearch.best_index_ g X y)
        ([], [], 0)).1 ∧
    gridsearch.best_score_ g X y =
      (npMean ((gridsearch.scoring_results_ g X y).getD (gridsearch.best_index_ g X y)
          ([], [], 0)).2.1,
       npStd ((gridsearch.scoring_results_ g X y).getD (gridsearch.best_index_ g X y)
          ([], [], 0)).2.1) := by
  have hlen : (gridsearch.scoring_results_ g X y).length =
      (paramGrid g.grid_params).length := by
    rw [gridsearch.scoring_results_, List.length_map]
  have hresne : gridsearch.scoring_results_ g X y ≠ [] := by
    intro h0
    apply hne
    have := hlen
    rw [h0] at this
    exact List.length_eq_zero.1 this.symm
  have hmeansne : (gridsearch.scoring_results_ g X y).map (fun r => r.2.2) ≠ [] := by
    intro h0
    exact hresne (List.map_eq_nil_iff.1 h0)
  have hget : ∀ j, j < (gridsearch.scoring_results_ g X y).length →
      ((gridsearch.scoring_results_ g X y).map (fun r => r.2.2)).getD j 0 =
        ((gridsearch.scoring_results_ g X y).getD j ([], [], 0)).2.2 := by
    intro j hj
    rw [List.getD_eq_getElem?_getD, List.getD_eq_getElem?_getD, List.getElem?_map,
      List.getElem?_eq_getElem hj]
    rfl
  have hbilt : npArgmax ((gridsearch.scoring_results_ g X y).map (fun r => r.2.2)) <
      (gridsearch.scoring_results_ g X y).length := by
    have := npArgmax_lt_length hmeansne
    rw [List.length_map] at this
    exact this
  refine ⟨hbilt, ?_, ?_, rfl, rfl⟩
  · intro j hj
    have h1 := getD_le_getD_npArgmax
      ((gridsearch.scoring_results_ g X y).map (fun r => r.2.2)) j
      (by rw [List.length_map]; exact hj)
    rw [hget j hj, hget _ hbilt] at h1
    exact h1
  · intro j hj heq
    by_contra hlt
    push_neg at hlt
    have hlt2 : j < npArgmax ((gridsearch.scoring_results_ g X y).map (fun r => r.2.2)) :=
      hlt
    have h1 := getD_lt_of_lt_npArgmax
      ((gridsearch.scoring_results_ g X y).map (fun r => r.2.2)) j hlt2
    rw [hget j hj, hget _ hbilt] at h1
    have heq2 : ((gridsearch.scoring_results_ g X y).getD j ([], [], 0)).2.2 =
        ((gridsearch.scoring_results_ g X y).getD
          (npArgmax ((gridsearch.scoring_results_ g X y).map (fun r => r.2.2)))
          ([], [], 0)).2.2 := heq
    rw [heq2] at h1
    exact lt_irrefl _ h1

/-- `C4`: the fold partition is a function of the fold count, the seed and
the inputs alone, and the scoring results are a function of the remaining
configuration and the inputs: two runs agreeing on those produce the
identical partition and identical per-candidate fold scores and means
(the parallelism degree `n_jobs` may differ). -/
theorem gridsearch_fit_deterministic {V α β : Type} [Inhabited α] [Inhabited β]
    [DecidableEq β] (g1 g2 : gridsearch V α β) (X : List α) (y : List β)
    (hcv : g1.cv = g2.cv) (hrs : g1.random_state = g2.random_state) :
    gridsearch.train_test_split g1 y = gridsearch.train_test_split g2 y ∧
    (g1.method = g2.method → g1.scoring = g2.scoring →
      g1.grid_params = g2.grid_params → g1.kwargs = g2.kwargs →
      gridsearch.scoring_results_ g1 X y = gridsearch.scoring_results_ g2 X y) := by
  obtain ⟨m1, gp1, sc1, cv1, nj1, rs1, kw1⟩ := g1
  obtain ⟨m2, gp2, sc2, cv2, nj2, rs2, kw2⟩ := g2
  dsimp only at hcv hrs
  subst hcv
  subst hrs
  refine ⟨rfl, ?_⟩
  intro hm hs hg hkw
  dsimp only at hm hs hg hkw
  subst hm
  subst hs
  subst hg
  subst hkw
  rfl

/-! ### Concrete grid-search instances for the witnesses -/

/-- Threshold classifier: predicts whether a row value reaches the
parameter `t`. -/
def demoMethod (p : List (String × ℚ)) : Estimator ℚ Bool :=
  ⟨fun _ _ x => decide (((List.lookup "t" p).getD 0) ≤ x)⟩

/-- Fraction of positions where prediction equals truth. -/
def accuracy (yt yp : List Bool) : ℚ :=
  ((yt.zip yp).countP (fun ab => ab.1 = ab.2) : ℚ) / (yt.length : ℚ)

def demoGS : gridsearch ℚ ℚ Bool :=
  ⟨demoMethod, [("t", [0, 2, 5])], accuracy, 2, -1, 7, none⟩

/-- Same configuration as `demoGS` apart from the parallelism degree. -/
def demoGS2 : gridsearch ℚ ℚ Bool :=
  ⟨demoMethod, [("t", [0, 2, 5])], accuracy, 2, 4, 7, none⟩

/-- Witness for `C3` at the concrete configuration. -/
theorem gridsearch_best_selection_witness :
    paramGrid demoGS.grid_params ≠ [] ∧
    (gridsearch.best_index_ demoGS demoX demoY <
      (gridsearch.scoring_results_ demoGS demoX demoY).length ∧
    (∀ j, j < (gridsearch.scoring_results_ demoGS demoX demoY).length →
      ((gridsearch.scoring_results_ demoGS demoX demoY).getD j ([], [], 0)).2.2 ≤
        ((gridsearch.scoring_results_ demoGS demoX demoY).getD
          (gridsearch.best_index_ demoGS demoX demoY) ([], [], 0)).2.2) ∧
    (∀ j, j < (gridsearch.scoring_results_ demoGS demoX demoY).length →
      ((gridsearch.scoring_results_ demoGS demoX demoY).getD j ([], [], 0)).2.2 =
        ((gridsearch.scoring_results_ demoGS demoX demoY).getD
          (gridsearch.best_index_ demoGS demoX demoY) ([], [], 0)).2.2 →
      gridsearch.best_index_ demoGS demoX demoY ≤ j) ∧
    gridsearch.best_params_ demoGS demoX demoY =
      ((gridsearch.scoring_results_ demoGS demoX demoY).getD
        (gridsearch.best_index_ demoGS demoX demoY) ([], [], 0)).1 ∧
    gridsearch.best_score_ demoGS demoX demoY =
      (npMean ((gridsearch.scoring_results_ demoGS demoX demoY).getD
          (gridsearch.best_index_ demoGS demoX demoY) ([], [], 0)).2.1,
       npStd ((gridsearch.scoring_results_ demoGS demoX demoY).getD
          (gridsearch.best_index_ demoGS demoX demoY) ([], [], 0)).2.1)) :=
  ⟨by decide, gridsearch_best_selection demoGS demoX demoY (by decide)⟩

/-- Witness for `C4`: the two concrete configurations differ only in
`n_jobs` and give the identical partition and results. -/
theorem gridsearch_fit_deterministic_witness :
    demoGS.cv = demoGS2.cv ∧ demoGS.random_state = demoGS2.random_state ∧
    (gridsearch.train_test_split demoGS demoY = gridsearch.train_test_split demoGS2 demoY ∧
    (demoGS.method = demoGS2.method → demoGS.scoring = demoGS2.scoring →
      demoGS.grid_params = demoGS2.grid_params → demoGS.kwargs = demoGS2.kwargs →
      gridsearch.scoring_results_ demoGS demoX demoY =
        gridsearch.scoring_results_ demoGS2 demoX demoY)) :=
  ⟨rfl, rfl, gridsearch_fit_deterministic demoGS demoGS2 demoX demoY rfl rfl⟩

/-! ## Exception flow of `gridsearch.fit` (failure policy)

The source wraps nothing in `fit`/`_eval` in a `try`: any exception from a
candidate's fold loop unwinds through joblib's `Parallel`, which re-raises
it, so line 127's assignment to `scoring_results_` never completes and
lines 130-136 never run.  The fallible embedding returns `Except`: an
`error` outcome is a run in which none of the attributes were produced. -/

/-- Whether a fallible computation raised. -/
def isErr {ε δ : Type} : Except ε δ → Bool
  | .ok _ => false
  | .error _ => true

/-- joblib's `Parallel` over fallible jobs: evaluate in dispatch order and
re-raise the first worker exception (which failing worker's exception
surfaces in the real scheduler is timing-dependent; the model surfaces the
first in grid order). -/
def collectResults {γ δ ε : Type} (f : γ → Except ε δ) : List γ → Except ε (List δ)
  | [] => .ok []
  | a :: l =>
    match f a with
    | .error e => .error e
    | .ok b =>
      match collectResults f l with
      | .error e => .error e
      | .ok bs => .ok (b :: bs)

theorem isErr_collectResults {γ δ ε : Type} (f : γ → Except ε δ) (l : List γ)
    (h : ∃ a ∈ l, isErr (f a) = true) : isErr (collectResults f l) = true := by
  induction l with
  | nil => simp at h
  | cons hd tl ih =>
    rcases h with ⟨a, ha, hae⟩
    rcases List.mem_cons.1 ha with rfl | hmem
    · cases hfa : f a with
      | error e => simp [collectResults, hfa, isErr]
      | ok b => rw [hfa] at hae; simp [isErr] at hae
    · cases hfa : f hd with
      | error e => simp [collectResults, hfa, isErr]
      | ok b =>
        have := ih ⟨a, hmem, hae⟩
        cases hrec : collectResults f tl with
        | error e => simp [collectResults, hfa, hrec, isErr]
        | ok bs => rw [hrec] at this; simp [isErr] at this

theorem collectResults_error_mem {γ δ ε : Type} (f : γ → Except ε δ) (l : List γ)
    (e : ε) (h : collectResults f l = .error e) : ∃ a ∈ l, f a = .error e := by
  induction l with
  | nil => simp [collectResults] at h
  | cons hd tl ih =>
    cases hfa : f hd with
    | error e2 =>
      rw [collectResults, hfa] at h
      cases h
      exact ⟨hd, List.mem_cons_self hd tl, hfa⟩
    | ok b =>
      rw [collectResults, hfa] at h
      cases hrec : collectResults f tl with
      | error e2 =>
        rw [hrec] at h
        cases h
        rcases ih hrec with ⟨a, ha, hae⟩
        exact ⟨a, List.mem_cons_of_mem hd ha, hae⟩
      | ok bs => rw [hrec] at h; cases h

/-- A fallible estimator: both the fit and the fitted model's vectorised
predict may raise. -/
structure EstimatorE (α β ε : Type) where
  fit : List α → List β → Except ε (List α → Except ε (List β))

/-- The `gridsearch` configuration with fallible estimator and scoring. -/
structure gridsearchE (V α β ε : Type) where
  method : List (String × V) → EstimatorE α β ε
  grid_params : List (String × List V)
  scoring : List β → List β → Except ε ℚ
  cv : ℕ
  n_jobs : ℤ
  random_state : ℕ
  kwargs : Option (List (String × V))

def mkClfE {V α β ε : Type} (g : gridsearchE V α β ε) (p : List (String × V)) :
    EstimatorE α β ε :=
  match g.kwargs with
  | none => g.method p
  | some kw => g.method (p ++ kw)

/-- Lines 102-118 with exceptions: the fold loop stops at the first raise
of fit, predict or scoring; otherwise the record is produced. -/
def gridsearchE.eval {V α β ε : Type} [Inhabited α] [Inhabited β]
    (g : gridsearchE V α β ε) (X : List α) (y : List β)
    (splits : List (List ℕ × List ℕ)) (p : List (String × V)) :
    Except ε (List (String × V) × List ℚ × ℚ) :=
  match collectResults (fun tt =>
    match (mkClfE g p).fit (select X tt.1) (select y tt.1) with
    | .error e => .error e
    | .ok model =>
      match model (select X tt.2) with
      | .error e => .error e
      | .ok preds => g.scoring (select y tt.2) preds) splits with
  | .error e => .error e
  | .ok scores => .ok (p, scores, npMean scores)

def gridsearchE.train_test_split {V α β ε : Type} [DecidableEq β]
    (g : gridsearchE V α β ε) (y : List β) : List (List ℕ × List ℕ) :=
  stratifiedKFoldSplits g.cv (some g.random_state) y

/-- Lines 120-128 with exceptions: the parallel evaluation of the grid.
An `error` outcome aborts `fit` before any attribute is assigned. -/
def gridsearchE.fit {V α β ε : Type} [Inhabited α] [Inhabited β] [DecidableEq β]
    (g : gridsearchE V α β ε) (X : List α) (y : List β) :
    Except ε (List (List (String × V) × List ℚ × ℚ)) :=
  collectResults (gridsearchE.eval g X y (gridsearchE.train_test_split g y))
    (paramGrid g.grid_params)

/-- `C7`: `gridsearch.fit` has no failure handling: if any candidate's
fold evaluation raises, the run raises (so no `scoring_results_`, and with
it no `best_index_`, `best_params_` or `best_score_`, is produced), and
the exception that surfaces is one raised by a candidate evaluation —
nothing is caught, retried or salvaged. -/
theorem gridsearch_fit_error_propagation {V α β ε : Type} [Inhabited α] [Inhabited β]
    [DecidableEq β] (g : gridsearchE V α β ε) (X : List α) (y : List β)
    (h : ∃ p ∈ paramGrid g.grid_params,
      isErr (gridsearchE.eval g X y (gridsearchE.train_test_split g y) p) = true) :
    isErr (gridsearchE.fit g X y) = true ∧
    (∀ r, gridsearchE.fit g X y ≠ Except.ok r) ∧
    (∀ e, gridsearchE.fit g X y = Except.error e →
      ∃ p ∈ paramGrid g.grid_params,
        gridsearchE.eval g X y (gridsearchE.train_test_split g y) p =
          Except.error e) := by
  have herr : isErr (gridsearchE.fit g X y) = true := isErr_collectResults _ _ h
  refine ⟨herr, ?_, ?_⟩
  · intro r hok
    rw [gridsearchE.fit] at hok
    rw [gridsearchE.fit, hok] at herr
    simp [isErr] at herr
  · intro e he
    rw [gridsearchE.fit] at he
    exact collectResults_error_mem _ _ e he

/-- A concrete fallible configuration whose scoring always raises
(error code `9`). -/
def demoGSE : gridsearchE ℚ ℚ Bool ℕ :=
  ⟨fun _ => ⟨fun _ _ => .ok (fun xs => .ok (xs.map (fun _ => true)))⟩,
   [("t", [0, 1])], fun _ _ => .error 9, 2, -1, 7, none⟩

/-- Witness for `C7` at the concrete failing configuration. -/
theorem gridsearch_fit_error_propagation_witness :
    (∃ p ∈ paramGrid demoGSE.grid_params,
      isErr (gridsearchE.eval demoGSE demoX demoY
        (gridsearchE.train_test_split demoGSE demoY) p) = true) ∧
    (isErr (gridsearchE.fit demoGSE demoX demoY) = true ∧
    (∀ r, gridsearchE.fit demoGSE demoX demoY ≠ Except.ok r) ∧
    (∀ e, gridsearchE.fit demoGSE demoX demoY = Except.error e →
      ∃ p ∈ paramGrid demoGSE.grid_params,
        gridsearchE.eval demoGSE demoX demoY
          (gridsearchE.train_test_split demoGSE demoY) p = Except.error e)) :=
  ⟨by decide, gridsearch_fit_error_propagation demoGSE demoX demoY (by decide)⟩

/-! ## `scaled_mcc` (lines 71-73) -/

/-- True positives of a binary label pair (pairing truncates at the
shorter list, as a length mismatch is out of the claims' scope). -/
def tpCount (y_true y_pred : List Bool) : ℕ :=
  (y_true.zip y_pred).countP (fun ab => ab.1 && ab.2)

def tnCount (y_true y_pred : List Bool) : ℕ :=
  (y_true.zip y_pred).countP (fun ab => !ab.1 && !ab.2)

def fpCount (y_true y_pred : List Bool) : ℕ :=
  (y_true.zip y_pred).countP (fun ab => !ab.1 && ab.2)

def fnCount (y_true y_pred : List Bool) : ℕ :=
  (y_true.zip y_pred).countP (fun ab => ab.1 && !ab.2)

/-- The product under the square root of the binary Matthews formula. -/
def mccDen (y_true y_pred : List Bool) : ℕ :=
  (tpCount y_true y_pred + fpCount y_true y_pred) *
    (tpCount y_true y_pred + fnCount y_true y_pred) *
    (tnCount y_true y_pred + fpCount y_true y_pred) *
    (tnCount y_true y_pred + fnCount y_true y_pred)

/-- Modelled from the spec: sklearn's `matthews_corrcoef` is library code;
per the spec's glossary it is "a balanced classification-quality measure
in [-1, 1]".  This is the standard binary formula
`(TP*TN - FP*FN) / sqrt((TP+FP)(TP+FN)(TN+FP)(TN+FN))`, with sklearn's
convention of returning 0 when the denominator vanishes. -/
noncomputable def matthews_corrcoef (y_true y_pred : List Bool) : ℝ :=
  if mccDen y_true y_pred = 0 then 0
  else ((tpCount y_true y_pred : ℝ) * (tnCount y_true y_pred : ℝ) -
      (fpCount y_true y_pred : ℝ) * (fnCount y_true y_pred : ℝ)) /
    Real.sqrt (mccDen y_true y_pred : ℝ)

/-- Lines 71-73 of `utils.py`: rescale the correlation into `[0, 1]`. -/
noncomputable def scaled_mcc (y_true y_pred : List Bool) : ℝ :=
  (matthews_corrcoef y_true y_pred + 1) / 2

/-- Cauchy-Schwarz-type bound: the Matthews numerator squared never
exceeds the product under the root. -/
theorem mcc_num_sq_le_den (a b c d : ℝ) (ha : 0 ≤ a) (hb : 0 ≤ b) (hc : 0 ≤ c)
    (hd : 0 ≤ d) : (a * d - b * c) ^ 2 ≤ (a + b) * (a + c) * (d + b) * (d + c) := by
  have key : (a + b) * (a + c) * (d + b) * (d + c) - (a * d - b * c) ^ 2 =
      b*(c*(d*d)) + b*(c*(c*d)) + b*(b*(c*d)) + a*(c*(d*d)) + a*(c*(c*d)) +
      a*(b*(d*d)) + 4*(a*(b*(c*d))) + a*(b*(c*c)) + a*(b*(b*d)) + a*(b*(b*c)) +
      a*(a*(c*d)) + a*(a*(b*d)) + a*(a*(b*c)) := by ring
  have t1 : 0 ≤ b*(c*(d*d)) := mul_nonneg hb (mul_nonneg hc (mul_nonneg hd hd))
  have t2 : 0 ≤ b*(c*(c*d)) := mul_nonneg hb (mul_nonneg hc (mul_nonneg hc hd))
  have t3 : 0 ≤ b*(b*(c*d)) := mul_nonneg hb (mul_nonneg hb (mul_nonneg hc hd))
  have t4 : 0 ≤ a*(c*(d*d)) := mul_nonneg ha (mul_nonneg hc (mul_nonneg hd hd))
  have t5 : 0 ≤ a*(c*(c*d)) := mul_nonneg ha (mul_nonneg hc (mul_nonneg hc hd))
  have t6 : 0 ≤ a*(b*(d*d)) := mul_nonneg ha (mul_nonneg hb (mul_nonneg hd hd))
  have t7 : 0 ≤ a*(b*(c*d)) := mul_nonneg ha (mul_nonneg hb (mul_nonneg hc hd))
  have t8 : 0 ≤ a*(b*(c*c)) := mul_nonneg ha (mul_nonneg hb (mul_nonneg hc hc))
  have t9 : 0 ≤ a*(b*(b*d)) := mul_nonneg ha (mul_nonneg hb (mul_nonneg hb hd))
  have t10 : 0 ≤ a*(b*(b*c)) := mul_nonneg ha (mul_nonneg hb (mul_nonneg hb hc))
  have t11 : 0 ≤ a*(a*(c*d)) := mul_nonneg ha (mul_nonneg ha (mul_nonneg hc hd))
  have t12 : 0 ≤ a*(a*(b*d)) := mul_nonneg ha (mul_nonneg ha (mul_nonneg hb hd))
  have t13 : 0 ≤ a*(a*(b*c)) := mul_nonneg ha (mul_nonneg ha (mul_nonneg hb hc))
  linarith

theorem abs_matthews_corrcoef_le_one (y_true y_pred : List Bool) :
    |matthews_corrcoef y_true y_pred| ≤ 1 := by
  rw [matthews_corrcoef]
  by_cases hden : mccDen y_true y_pred = 0
  · rw [if_pos hden]
    simp
  · rw [if_neg hden]
    have hdpos : (0 : ℝ) < (mccDen y_true y_pred : ℝ) := by
      exact_mod_cast Nat.pos_of_ne_zero hden
    have hspos : 0 < Real.sqrt (mccDen y_true y_pred : ℝ) := Real.sqrt_pos.2 hdpos
    rw [abs_div, abs_of_pos hspos, div_le_one hspos]
    have hsq : ((tpCount y_true y_pred : ℝ) * (tnCount y_true y_pred : ℝ) -
        (fpCount y_true y_pred : ℝ) * (fnCount y_true y_pred : ℝ)) ^ 2 ≤
        (mccDen y_true y_pred : ℝ) := by
      have := mcc_num_sq_le_den (tpCount y_true y_pred : ℝ) (fpCount y_true y_pred : ℝ)
        (fnCount y_true y_pred : ℝ) (tnCount y_true y_pred : ℝ)
        (by positivity) (by positivity) (by positivity) (by positivity)
      calc ((tpCount y_true y_pred : ℝ) * (tnCount y_true y_pred : ℝ) -
            (fpCount y_true y_pred : ℝ) * (fnCount y_true y_pred : ℝ)) ^ 2 ≤
          ((tpCount y_true y_pred : ℝ) + (fpCount y_true y_pred : ℝ)) *
            ((tpCount y_true y_pred : ℝ) + (fnCount y_true y_pred : ℝ)) *
            ((tnCount y_true y_pred : ℝ) + (fpCount y_true y_pred : ℝ)) *
            ((tnCount y_true y_pred : ℝ) + (fnCount y_true y_pred : ℝ)) := this
        _ = (mccDen y_true y_pred : ℝ) := by
            rw [mccDen]
            push_cast
            ring
    calc |(tpCount y_true y_pred : ℝ) * (tnCount y_true y_pred : ℝ) -
          (fpCount y_true y_pred : ℝ) * (fnCount y_true y_pred : ℝ)|
        = Real.sqrt (((tpCount y_true y_pred : ℝ) * (tnCount y_true y_pred : ℝ) -
            (fpCount y_true y_pred : ℝ) * (fnCount y_true y_pred : ℝ)) ^ 2) :=
          (Real.sqrt_sq_eq_abs _).symm
      _ ≤ Real.sqrt (mccDen y_true y_pred : ℝ) := Real.sqrt_le_sqrt hsq

theorem tpCount_self (l : List Bool) : tpCount l l = l.countP (fun b => b) := by
  induction l with
  | nil => rfl
  | cons a t ih =>
    cases a <;> simp [tpCount, List.countP_cons] at ih ⊢ <;> omega

theorem tnCount_self (l : List Bool) : tnCount l l = l.countP (fun b => !b) := by
  induction l with
  | nil => rfl
  | cons a t ih =>
    cases a <;> simp [tnCount, List.countP_cons] at ih ⊢ <;> omega

theorem fpCount_self (l : List Bool) : fpCount l l = 0 := by
  induction l with
  | nil => rfl
  | cons a t ih =>
    have hstep : fpCount (a :: t) (a :: t) = fpCount t t := by
      cases a <;> simp [fpCount, List.countP_cons]
    rw [hstep, ih]

theorem fnCount_self (l : List Bool) : fnCount l l = 0 := by
  induction l with
  | nil => rfl
  | cons a t ih =>
    have hstep : fnCount (a :: t) (a :: t) = fnCount t t := by
      cases a <;> simp [fnCount, List.countP_cons]
    rw [hstep, ih]

/-- `C8`: `scaled_mcc` is `(matthews_corrcoef + 1) / 2`; it always lies in
`[0, 1]`; and a perfect predictor with both classes present scores
exactly 1. -/
theorem scaled_mcc_bounds_and_perfect :
    (∀ y_true y_pred : List Bool,
      scaled_mcc y_true y_pred = (matthews_corrcoef y_true y_pred + 1) / 2) ∧
    (∀ y_true y_pred : List Bool,
      0 ≤ scaled_mcc y_true y_pred ∧ scaled_mcc y_true y_pred ≤ 1) ∧
    (∀ y_true y_pred : List Bool, y_true = y_pred → true ∈ y_true →
      false ∈ y_true → scaled_mcc y_true y_pred = 1) := by
  refine ⟨fun _ _ => rfl, ?_, ?_⟩
  · intro y_true y_pred
    have h := abs_matthews_corrcoef_le_one y_true y_pred
    rw [abs_le] at h
    constructor
    · rw [scaled_mcc]
      linarith [h.1]
    · rw [scaled_mcc]
      linarith [h.2]
  · intro y_true y_pred hself htrue hfalse
    subst hself
    have htp : 0 < tpCount y_true y_true := by
      rw [tpCount_self]
      exact List.countP_pos_iff.2 ⟨true, htrue, rfl⟩
    have htn : 0 < tnCount y_true y_true := by
      rw [tnCount_self]
      exact List.countP_pos_iff.2 ⟨false, hfalse, rfl⟩
    have hfp : fpCount y_true y_true = 0 := fpCount_self y_true
    have hfn : fnCount y_true y_true = 0 := fnCount_self y_true
    have hden : mccDen y_true y_true =
        (tpCount y_true y_true * tnCount y_true y_true) ^ 2 := by
      rw [mccDen, hfp, hfn]
      ring
    have hdnz : mccDen y_true y_true ≠ 0 := by
      rw [hden]
      positivity
    have hprod : (0 : ℝ) < (tpCount y_true y_true : ℝ) * (tnCount y_true y_true : ℝ) := by
      have h1 : (0 : ℝ) < (tpCount y_true y_true : ℝ) := by exact_mod_cast htp
      have h2 : (0 : ℝ) < (tnCount y_true y_true : ℝ) := by exact_mod_cast htn
      exact mul_pos h1 h2
    have hmcc : matthews_corrcoef y_true y_true = 1 := by
      rw [matthews_corrcoef, if_neg hdnz, hfp, hfn]
      have hcast : (mccDen y_true y_true : ℝ) =
          ((tpCount y_true y_true : ℝ) * (tnCount y_true y_true : ℝ)) ^ 2 := by
        rw [hden]
        push_cast
        ring
      rw [hcast, Real.sqrt_sq (le_of_lt hprod)]
      push_cast
      rw [mul_zero, sub_zero]
      exact div_self (ne_of_gt hprod)
    rw [scaled_mcc, hmcc]
    norm_num

/-- Witness for `C8` exercising the perfect-predictor branch at a concrete
label pair. -/
theorem scaled_mcc_bounds_and_perfect_witness :
    (0 ≤ scaled_mcc [true, false] [true, true] ∧
      scaled_mcc [true, false] [true, true] ≤ 1) ∧
    scaled_mcc [true, false, true] [true, false, true] = 1 :=
  ⟨scaled_mcc_bounds_and_perfect.2.1 [true, false] [true, true],
   scaled_mcc_bounds_and_perfect.2.2 [true, false, true] [true, false, true] rfl
     (by decide) (by decide)⟩

/-! ## `confusion_matrix` (lines 61-68) -/

/-- Round half-to-even to an integer, numpy's rounding mode. -/
def roundHalfEven (q : ℚ) : ℤ :=
  if q - Int.floor q < 1 / 2 then Int.floor q
  else if 1 / 2 < q - Int.floor q then Int.floor q + 1
  else if Int.floor q % 2 = 0 then Int.floor q else Int.floor q + 1

/-- `DataFrame.round(2)`: round at the second decimal (the table holds
exact rationals; binary-float representation effects of the real pandas
table are outside the claims' scope). -/
def round2 (q : ℚ) : ℚ := (roundHalfEven (q * 100) : ℚ) / 100

theorem abs_roundHalfEven_sub_le (q : ℚ) : |(roundHalfEven q : ℚ) - q| ≤ 1 / 2 := by
  have hfl : (Int.floor q : ℚ) ≤ q := Int.floor_le q
  have hfu : q < (Int.floor q : ℚ) + 1 := Int.lt_floor_add_one q
  rw [roundHalfEven]
  by_cases h1 : q - Int.floor q < 1 / 2
  · rw [if_pos h1, abs_le]
    constructor <;> linarith
  · rw [if_neg h1]
    by_cases h2 : 1 / 2 < q - Int.floor q
    · rw [if_pos h2, abs_le]
      push_cast
      constructor <;> linarith
    · rw [if_neg h2]
      have heq : q - Int.floor q = 1 / 2 := by linarith [le_of_not_lt h1, le_of_not_lt h2]
      by_cases h3 : Int.floor q % 2 = 0
      · rw [if_pos h3, abs_le]
        constructor <;> linarith
      · rw [if_neg h3, abs_le]
        push_cast
        constructor <;> linarith

theorem abs_round2_sub_le (q : ℚ) : |round2 q - q| ≤ 1 / 200 := by
  have h := abs_roundHalfEven_sub_le (q * 100)
  rw [round2]
  have hrw : (roundHalfEven (q * 100) : ℚ) / 100 - q =
      ((roundHalfEven (q * 100) : ℚ) - q * 100) / 100 := by ring
  rw [hrw, abs_div]
  have h100 : |(100 : ℚ)| = 100 := by norm_num
  rw [h100]
  rw [div_le_iff₀ (by norm_num : (0 : ℚ) < 100)]
  linarith

/-- Distinct values of a list in ascending order: the axis labels of
`pd.crosstab` (pandas sorts the observed values). -/
def sortedDedup (l : List ℕ) : List ℕ := l.dedup.mergeSort (fun a b => decide (a ≤ b))

theorem mem_sortedDedup {a : ℕ} {l : List ℕ} : a ∈ sortedDedup l ↔ a ∈ l := by
  rw [sortedDedup, List.mem_mergeSort, List.mem_dedup]

theorem nodup_sortedDedup (l : List ℕ) : (sortedDedup l).Nodup :=
  (List.mergeSort_perm l.dedup _).nodup_iff.2 (List.nodup_dedup l)

theorem length_sortedDedup (l : List ℕ) : (sortedDedup l).length = l.dedup.length :=
  List.length_mergeSort l.dedup

/-- One cell of the raw cross-tabulation of (prediction, truth) pairs. -/
def crosstabCell (preds y : List ℕ) (a b : ℕ) : ℕ :=
  (preds.zip y).countP (fun pq => pq.1 == a && pq.2 == b)

/-- The margined table's raw count at row `i`, column `j` (`0` and `1`
address the two sorted distinct values of the axis, `2` the `total`
margin; pandas computes each margin by summing the table). -/
def marginCell (preds y : List ℕ) (i j : ℕ) : ℕ :=
  let c : ℕ → ℕ → ℕ := fun a b =>
    crosstabCell preds y ((sortedDedup preds).getD a 0) ((sortedDedup y).getD b 0)
  if i < 2 then (if j < 2 then c i j else c i 0 + c i 1)
  else (if j < 2 then c 0 j + c 1 j else c 0 0 + c 0 1 + c 1 0 + c 1 1)

/-- A table entry before rounding: the raw count, divided by the grand
total when normalising (`pd.crosstab(..., normalize=True)` divides every
cell, margins included, by the total count). -/
def unroundedEntry (preds y : List ℕ) (normalize : Bool) (i j : ℕ) : ℚ :=
  if normalize then (marginCell preds y i j : ℚ) / ((preds.zip y).length : ℚ)
  else (marginCell preds y i j : ℚ)

/-- Lines 61-68 of `utils.py`.  `pd.crosstab(preds, y, margins=True, ...)`
builds a table with one row per distinct predicted value plus the margin
row (and likewise for columns); lines 64-67 then assign the fixed
3-element axis labels `[0, 1, 'total']`, which pandas accepts exactly when
the axis has 3 entries — i.e. when each of `preds` and `y` carries exactly
two distinct values — and otherwise rejects with a length-mismatch
`ValueError` (modelled as `none`).  Line 68 rounds every entry to two
decimals. -/
def confusion_matrix (preds y : List ℕ) (normalize : Bool) :
    Option (Fin 3 → Fin 3 → ℚ) :=
  if (sortedDedup preds).length = 2 ∧ (sortedDedup y).length = 2 then
    some (fun i j => round2 (unroundedEntry preds y normalize i.val j.val))
  else none

/-- `C10`: the relabeling to the fixed universe succeeds exactly when the
predictions and the true labels each contain exactly two distinct values;
otherwise no table is returned. -/
theorem confusion_matrix_some_iff_binary (preds y : List ℕ) (normalize : Bool) :
    ((confusion_matrix preds y normalize).isSome = true ↔
      preds.dedup.length = 2 ∧ y.dedup.length = 2) ∧
    (confusion_matrix preds y normalize = none ↔
      ¬ (preds.dedup.length = 2 ∧ y.dedup.length = 2)) := by
  have hlp := length_sortedDedup preds
  have hly := length_sortedDedup y
  rw [confusion_matrix]
  by_cases h : (sortedDedup preds).length = 2 ∧ (sortedDedup y).length = 2
  · rw [if_pos h]
    constructor
    · simp only [Option.isSome_some, true_iff]
      exact ⟨hlp ▸ h.1, hly ▸ h.2⟩
    · simp only [iff_false_intro (Option.some_ne_none _), false_iff, not_not]
      exact ⟨hlp ▸ h.1, hly ▸ h.2⟩
  · rw [if_neg h]
    constructor
    · constructor
      · intro hc
        simp at hc
      · intro hc
        exact absurd ⟨hlp.symm ▸ hc.1, hly.symm ▸ hc.2⟩ h
    · constructor
      · intro _ hc
        exact h ⟨hlp.symm ▸ hc.1, hly.symm ▸ hc.2⟩
      · intro _
        rfl

/-- `C9` counterexample: at `preds = [0, 0, 1]`, `y = [0, 1, 0]` with
normalisation, the returned table's `total`-row entry in column 0 is
`0.67` while the two column entries are `0.33` each: in the rounded table
the margin (`0.67`) differs from the sum of the entries (`0.66`). -/
theorem confusion_matrix_rounded_margin_counterexample :
    ((confusion_matrix [0, 0, 1] [0, 1, 0] true).map
      (fun T => (T 2 0, T 0 0 + T 1 0))) = some (67 / 100, 66 / 100) ∧
    (67 / 100 : ℚ) ≠ 66 / 100 := by
  constructor
  · with_unfolding_all decide
  · norm_num

theorem countP_pair_split (c d : ℕ) (hcd : c ≠ d) (a : ℕ) :
    ∀ l : List (ℕ × ℕ), (∀ pq ∈ l, pq.2 = c ∨ pq.2 = d) →
      l.countP (fun pq => pq.1 == a && pq.2 == c) +
        l.countP (fun pq => pq.1 == a && pq.2 == d) =
        l.countP (fun pq => pq.1 == a) := by
  intro l
  induction l with
  | nil => intro _; rfl
  | cons hd tl ih =>
    intro hcov
    have htl := ih (fun pq h => hcov pq (List.mem_cons_of_mem hd h))
    rw [List.countP_cons, List.countP_cons, List.countP_cons]
    rcases hcov hd (List.mem_cons_self hd tl) with h2 | h2 <;>
      by_cases ha : hd.1 = a <;>
      simp [h2, ha, hcd, Ne.symm hcd] <;>
      omega

theorem countP_fst_split (a1 a2 : ℕ) (ha : a1 ≠ a2) :
    ∀ l : List (ℕ × ℕ), (∀ pq ∈ l, pq.1 = a1 ∨ pq.1 = a2) →
      l.countP (fun pq => pq.1 == a1) + l.countP (fun pq => pq.1 == a2) =
        l.length := by
  intro l
  induction l with
  | nil => intro _; rfl
  | cons hd tl ih =>
    intro hcov
    have htl := ih (fun pq h => hcov pq (List.mem_cons_of_mem hd h))
    rw [List.countP_cons, List.countP_cons]
    rcases hcov hd (List.mem_cons_self hd tl) with h1 | h1 <;>
      simp [h1, ha, Ne.symm ha, List.length_cons] <;>
      omega

/-- With both axes exactly binary, the four plain cells exhaust the pairs:
their counts sum to the grand total. -/
theorem cells_sum_eq_length (preds y : List ℕ)
    (hp : (sortedDedup preds).length = 2) (hy : (sortedDedup y).length = 2) :
    marginCell preds y 0 0 + marginCell preds y 0 1 +
      marginCell preds y 1 0 + marginCell preds y 1 1 = (preds.zip y).length := by
  rcases List.length_eq_two.1 hp with ⟨a1, a2, hrp⟩
  rcases List.length_eq_two.1 hy with ⟨c1, c2, hry⟩
  have hane : a1 ≠ a2 := by
    have hnd := nodup_sortedDedup preds
    rw [hrp] at hnd
    have := List.rel_of_pairwise_cons hnd (List.mem_cons_self a2 [])
    exact this
  have hcne : c1 ≠ c2 := by
    have hnd := nodup_sortedDedup y
    rw [hry] at hnd
    have := List.rel_of_pairwise_cons hnd (List.mem_cons_self c2 [])
    exact this
  have hcovy : ∀ pq ∈ preds.zip y, pq.2 = c1 ∨ pq.2 = c2 := by
    intro pq hm
    have h2 : pq.2 ∈ y := (List.of_mem_zip (by simpa using hm)).2
    have h3 : pq.2 ∈ sortedDedup y := mem_sortedDedup.2 h2
    rw [hry] at h3
    simpa using h3
  have hcovp : ∀ pq ∈ preds.zip y, pq.1 = a1 ∨ pq.1 = a2 := by
    intro pq hm
    have h2 : pq.1 ∈ preds := (List.of_mem_zip (by simpa using hm)).1
    have h3 : pq.1 ∈ sortedDedup preds := mem_sortedDedup.2 h2
    rw [hrp] at h3
    simpa using h3
  have hrow1 := countP_pair_split c1 c2 hcne a1 (preds.zip y) hcovy
  have hrow2 := countP_pair_split c1 c2 hcne a2 (preds.zip y) hcovy
  have htot := countP_fst_split a1 a2 hane (preds.zip y) hcovp
  have hcell : ∀ i j : ℕ, i < 2 → j < 2 → marginCell preds y i j =
      crosstabCell preds y ((sortedDedup preds).getD i 0)
        ((sortedDedup y).getD j 0) := by
    intro i j hi hj
    rw [marginCell]
    simp [hi, hj]
  rw [hcell 0 0 (by omega) (by omega), hcell 0 1 (by omega) (by omega),
    hcell 1 0 (by omega) (by omega), hcell 1 1 (by omega) (by omega), hrp, hry]
  show crosstabCell preds y a1 c1 + crosstabCell preds y a1 c2 +
      crosstabCell preds y a2 c1 + crosstabCell preds y a2 c2 = (preds.zip y).length
  rw [crosstabCell, crosstabCell, crosstabCell, crosstabCell]
  omega

/-- With both axes exactly binary, the pair list is nonempty. -/
theorem zip_length_pos (preds y : List ℕ)
    (hp : (sortedDedup preds).length = 2) (hy : (sortedDedup y).length = 2) :
    0 < (preds.zip y).length := by
  rcases List.length_eq_two.1 hp with ⟨a1, a2, hrp⟩
  rcases List.length_eq_two.1 hy with ⟨c1, c2, hry⟩
  have hpne : 0 < preds.length := by
    have : a1 ∈ sortedDedup preds := by rw [hrp]; simp
    have hm := mem_sortedDedup.1 this
    exact List.length_pos.2 (List.ne_nil_of_mem hm)
  have hyne : 0 < y.length := by
    have : c1 ∈ sortedDedup y := by rw [hry]; simp
    have hm := mem_sortedDedup.1 this
    exact List.length_pos.2 (List.ne_nil_of_mem hm)
  rw [List.length_zip]
  omega

/-- `C9` (amended): in the returned table the margins equal the sums of
the corresponding entries *before* rounding, and within the rounding
tolerance (`0.015`) after; with normalisation the four non-margin cells
sum to exactly 1 before rounding and to within `0.02` after. -/
theorem confusion_matrix_margins_amended (preds y : List ℕ) (normalize : Bool)
    (T : Fin 3 → Fin 3 → ℚ)
    (hT : confusion_matrix preds y normalize = some T) :
    (∀ i j : Fin 3, T i j = round2 (unroundedEntry preds y normalize i.val j.val)) ∧
    (∀ j : ℕ, j < 3 → unroundedEntry preds y normalize 2 j =
      unroundedEntry preds y normalize 0 j + unroundedEntry preds y normalize 1 j) ∧
    (∀ i : ℕ, i < 3 → unroundedEntry preds y normalize i 2 =
      unroundedEntry preds y normalize i 0 + unroundedEntry preds y normalize i 1) ∧
    (∀ j : Fin 3, |T 2 j - (T 0 j + T 1 j)| ≤ 3 / 200) ∧
    (∀ i : Fin 3, |T i 2 - (T i 0 + T i 1)| ≤ 3 / 200) ∧
    (normalize = true →
      unroundedEntry preds y true 0 0 + unroundedEntry preds y true 0 1 +
        unroundedEntry preds y true 1 0 + unroundedEntry preds y true 1 1 = 1 ∧
      |T 0 0 + T 0 1 + T 1 0 + T 1 1 - 1| ≤ 1 / 50) := by
  have hg : (sortedDedup preds).length = 2 ∧ (sortedDedup y).length = 2 := by
    by_contra hg
    rw [confusion_matrix, if_neg hg] at hT
    cases hT
  have hTfun : T = fun i j => round2 (unroundedEntry preds y normalize i.val j.val) := by
    rw [confusion_matrix, if_pos hg] at hT
    exact (Option.some.inj hT).symm
  have hMcol : ∀ j : ℕ, j < 3 → marginCell preds y 2 j =
      marginCell preds y 0 j + marginCell preds y 1 j := by
    intro j hj
    rcases Nat.lt_or_ge j 2 with hj2 | hj2
    · rw [marginCell, marginCell, marginCell]
      simp [hj2]
    · have hj3 : j = 2 := by omega
      subst hj3
      rw [marginCell, marginCell, marginCell]
      norm_num
      omega
  have hMrow : ∀ i : ℕ, i < 3 → marginCell preds y i 2 =
      marginCell preds y i 0 + marginCell preds y i 1 := by
    intro i hi
    rcases Nat.lt_or_ge i 2 with hi2 | hi2
    · rw [marginCell, marginCell, marginCell]
      simp [hi2]
    · have hi3 : i = 2 := by omega
      subst hi3
      rw [marginCell, marginCell, marginCell]
      norm_num
      omega
  have hUadd : ∀ a b a1 b1 a2 b2 : ℕ,
      marginCell preds y a b = marginCell preds y a1 b1 + marginCell preds y a2 b2 →
      unroundedEntry preds y normalize a b =
        unroundedEntry preds y normalize a1 b1 + unroundedEntry preds y normalize a2 b2 := by
    intro a b a1 b1 a2 b2 hm
    cases normalize with
    | false =>
      rw [unroundedEntry, unroundedEntry, unroundedEntry]
      simp only [Bool.false_eq_true, if_false]
      exact_mod_cast hm
    | true =>
      rw [unroundedEntry, unroundedEntry, unroundedEntry]
      simp only [if_true]
      rw [hm]
      push_cast
      ring
  have hUcol : ∀ j : ℕ, j < 3 → unroundedEntry preds y normalize 2 j =
      unroundedEntry preds y normalize 0 j + unroundedEntry preds y normalize 1 j :=
    fun j hj => hUadd 2 j 0 j 1 j (hMcol j hj)
  have hUrow : ∀ i : ℕ, i < 3 → unroundedEntry preds y normalize i 2 =
      unroundedEntry preds y normalize i 0 + unroundedEntry preds y normalize i 1 :=
    fun i hi => hUadd i 2 i 0 i 1 (hMrow i hi)
  refine ⟨?_, hUcol, hUrow, ?_, ?_, ?_⟩
  · intro i j
    rw [hTfun]
  · intro j
    have h2 := abs_round2_sub_le (unroundedEntry preds y normalize 2 j.val)
    have h0 := abs_round2_sub_le (unroundedEntry preds y normalize 0 j.val)
    have h1 := abs_round2_sub_le (unroundedEntry preds y normalize 1 j.val)
    have hu := hUcol j.val j.isLt
    rw [hTfun]
    simp only []
    rw [abs_le] at h2 h0 h1 ⊢
    constructor <;> [skip; skip] <;>
      · have hf2 : ((2 : Fin 3)).val = 2 := rfl
        have hf0 : ((0 : Fin 3)).val = 0 := rfl
        have hf1 : ((1 : Fin 3)).val = 1 := rfl
        rw [hf2, hf0, hf1]
        linarith [h2.1, h2.2, h0.1, h0.2, h1.1, h1.2]
  · intro i
    have h2 := abs_round2_sub_le (unroundedEntry preds y normalize i.val 2)
    have h0 := abs_round2_sub_le (unroundedEntry preds y normalize i.val 0)
    have h1 := abs_round2_sub_le (unroundedEntry preds y normalize i.val 1)
    have hu := hUrow i.val i.isLt
    rw [hTfun]
    simp only []
    rw [abs_le] at h2 h0 h1 ⊢
    constructor <;> [skip; skip] <;>
      · have hf2 : ((2 : Fin 3)).val = 2 := rfl
        have hf0 : ((0 : Fin 3)).val = 0 := rfl
        have hf1 : ((1 : Fin 3)).val = 1 := rfl
        rw [hf2, hf0, hf1]
        linarith [h2.1, h2.2, h0.1, h0.2, h1.1, h1.2]
  · intro hn
    subst hn
    have hsum := cells_sum_eq_length preds y hg.1 hg.2
    have hpos := zip_length_pos preds y hg.1 hg.2
    have hnz : ((preds.zip y).length : ℚ) ≠ 0 := by
      exact_mod_cast Nat.pos_iff_ne_zero.1 hpos
    have hone : unroundedEntry preds y true 0 0 + unroundedEntry preds y true 0 1 +
        unroundedEntry preds y true 1 0 + unroundedEntry preds y true 1 1 = 1 := by
      rw [unroundedEntry, unroundedEntry, unroundedEntry, unroundedEntry]
      simp only [if_true]
      rw [div_add_div_same, div_add_div_same, div_add_div_same]
      rw [div_eq_one_iff_eq hnz]
      exact_mod_cast hsum
    refine ⟨hone, ?_⟩
    have h00 := abs_round2_sub_le (unroundedEntry preds y true 0 0)
    have h01 := abs_round2_sub_le (unroundedEntry preds y true 0 1)
    have h10 := abs_round2_sub_le (unroundedEntry preds y true 1 0)
    have h11 := abs_round2_sub_le (unroundedEntry preds y true 1 1)
    rw [hTfun]
    simp only []
    rw [abs_le] at h00 h01 h10 h11 ⊢
    constructor <;>
      · have hf0 : ((0 : Fin 3)).val = 0 := rfl
        have hf1 : ((1 : Fin 3)).val = 1 := rfl
        rw [hf0, hf1]
        linarith [h00.1, h00.2, h01.1, h01.2, h10.1, h10.2, h11.1, h11.2]

/-- The table the model returns at the witness input. -/
def demoT : Fin 3 → Fin 3 → ℚ :=
  fun i j => round2 (unroundedEntry [0, 0, 1] [0, 1, 0] true i.val j.val)

/-- Witness for the amended `C9` at a concrete normalised input. -/
theorem confusion_matrix_margins_amended_witness :
    confusion_matrix [0, 0, 1] [0, 1, 0] true = some demoT ∧
    ((∀ i j : Fin 3, demoT i j =
      round2 (unroundedEntry [0, 0, 1] [0, 1, 0] true i.val j.val)) ∧
    (∀ j : ℕ, j < 3 → unroundedEntry [0, 0, 1] [0, 1, 0] true 2 j =
      unroundedEntry [0, 0, 1] [0, 1, 0] true 0 j +
        unroundedEntry [0, 0, 1] [0, 1, 0] true 1 j) ∧
    (∀ i : ℕ, i < 3 → unroundedEntry [0, 0, 1] [0, 1, 0] true i 2 =
      unroundedEntry [0, 0, 1] [0, 1, 0] true i 0 +
        unroundedEntry [0, 0, 1] [0, 1, 0] true i 1) ∧
    (∀ j : Fin 3, |demoT 2 j - (demoT 0 j + demoT 1 j)| ≤ 3 / 200) ∧
    (∀ i : Fin 3, |demoT i 2 - (demoT i 0 + demoT i 1)| ≤ 3 / 200) ∧
    (true = true →
      unroundedEntry [0, 0, 1] [0, 1, 0] true 0 0 +
        unroundedEntry [0, 0, 1] [0, 1, 0] true 0 1 +
        unroundedEntry [0, 0, 1] [0, 1, 0] true 1 0 +
        unroundedEntry [0, 0, 1] [0, 1, 0] true 1 1 = 1 ∧
      |demoT 0 0 + demoT 0 1 + demoT 1 0 + demoT 1 1 - 1| ≤ 1 / 50)) :=
  ⟨by rw [confusion_matrix, if_pos (by with_unfolding_all decide)]; rfl,
   confusion_matrix_margins_amended [0, 0, 1] [0, 1, 0] true demoT
     (by rw [confusion_matrix, if_pos (by with_unfolding_all decide)]; rfl)⟩

end Moe
